import Mathlib

/-!
Verification development for the jsonpath-extract repository.

The repository evaluates a JSONPath-style query against a parsed JSON
document and renders the matches either as an indented JSON array or as a
newline-joined plain-text listing.  This file gives a shallow embedding of
the repository's core:

* `Json` — the JSON value tree the engine walks (JS numbers are modelled as
  integers, the only numeric values the development needs to reason about).
* the result formatter `ResultFormatter.format` from `resultFormatter.ts`,
  built on executable models of `JSON.stringify(v)` (compact) and
  `JSON.stringify(v, null, 2)` (two-space indented).
* an executable model of `JSON.parse` (a standard recursive-descent JSON
  reader over the character list of the input).
* the extension glue from `jsonPathExtension.ts` (`getJsonObject`,
  `handleError`, `run`, `runSavedQuery`) as trace-producing functions.
* the query engine, whose source file is referenced by the extension but
  not part of the repository snapshot; it is modelled from the spec.
-/

set_option maxHeartbeats 1000000

/-- A JSON value: null, boolean, number, string, ordered array, or an
object whose fields keep insertion order.  Numbers are modelled as `Int`. -/
inductive Json where
  | null : Json
  | bool (b : Bool) : Json
  | num (n : Int) : Json
  | str (s : String) : Json
  | arr (items : List Json) : Json
  | obj (fields : List (String × Json)) : Json

/-! ### Named punctuation characters used throughout the JSON grammar -/

def dquote : Char := Char.ofNat 34

def bslash : Char := Char.ofNat 92

def squote : Char := Char.ofNat 39

def lbrace : Char := Char.ofNat 123

def rbrace : Char := Char.ofNat 125

/-! ### Decimal rendering of numbers (JS `Number.prototype.toString`) -/

def digitChar (d : Nat) : Char := Char.ofNat (48 + d)

def hexDigitChar (d : Nat) : Char :=
  if d < 10 then Char.ofNat (48 + d) else Char.ofNat (87 + d)

/-- Big-endian decimal digits of `n`, with `fuel` bounding the recursion. -/
def natCharsAux : Nat → Nat → List Char
  | 0, _ => []
  | fuel + 1, n => if n = 0 then [] else natCharsAux fuel (n / 10) ++ [digitChar (n % 10)]

def natChars (n : Nat) : List Char :=
  if n = 0 then [digitChar 0] else natCharsAux n n

def intChars (i : Int) : List Char :=
  if i < 0 then '-' :: natChars i.natAbs else natChars i.natAbs

/-! ### String quoting (ECMAScript `QuoteJSONString`) -/

def escapeChar (c : Char) : List Char :=
  if c = dquote then [bslash, dquote]
  else if c = bslash then [bslash, bslash]
  else if c = Char.ofNat 8 then [bslash, 'b']
  else if c = Char.ofNat 12 then [bslash, 'f']
  else if c = '\n' then [bslash, 'n']
  else if c = '\r' then [bslash, 'r']
  else if c = '\t' then [bslash, 't']
  else if c.toNat < 32 then
    [bslash, 'u', '0', '0', hexDigitChar (c.toNat / 16), hexDigitChar (c.toNat % 16)]
  else [c]

def quoteString (s : String) : List Char :=
  dquote :: (s.data.flatMap escapeChar ++ [dquote])

/-! ### `JSON.stringify(v, null, 2)` — indented printer -/

def spaces (n : Nat) : List Char := List.replicate n ' '

mutual

def ppValue (d : Nat) : Json → List Char
  | .null => 'n' :: 'u' :: 'l' :: 'l' :: []
  | .bool true => 't' :: 'r' :: 'u' :: 'e' :: []
  | .bool false => 'f' :: 'a' :: 'l' :: 's' :: 'e' :: []
  | .num i => intChars i
  | .str s => quoteString s
  | .arr [] => ['[', ']']
  | .arr (x :: xs) =>
      '[' :: '\n' :: (ppItems (d + 1) (x :: xs) ++ '\n' :: (spaces (2 * d) ++ [']']))
  | .obj [] => [lbrace, rbrace]
  | .obj (p :: ps) =>
      lbrace :: '\n' :: (ppMembers (d + 1) (p :: ps) ++ '\n' :: (spaces (2 * d) ++ [rbrace]))

def ppItems (d : Nat) : List Json → List Char
  | [] => []
  | [x] => spaces (2 * d) ++ ppValue d x
  | x :: xs => (spaces (2 * d) ++ ppValue d x) ++ ',' :: '\n' :: ppItems d xs

def ppMembers (d : Nat) : List (String × Json) → List Char
  | [] => []
  | [p] => spaces (2 * d) ++ (quoteString p.1 ++ ':' :: ' ' :: ppValue d p.2)
  | p :: ps =>
      (spaces (2 * d) ++ (quoteString p.1 ++ ':' :: ' ' :: ppValue d p.2)) ++ ',' :: '\n' :: ppMembers d ps

end

/-! ### `JSON.stringify(v)` — compact printer -/

mutual

def cpValue : Json → List Char
  | .null => 'n' :: 'u' :: 'l' :: 'l' :: []
  | .bool true => 't' :: 'r' :: 'u' :: 'e' :: []
  | .bool false => 'f' :: 'a' :: 'l' :: 's' :: 'e' :: []
  | .num i => intChars i
  | .str s => quoteString s
  | .arr [] => ['[', ']']
  | .arr (x :: xs) => '[' :: (cpValue x ++ (cpItems xs ++ [']']))
  | .obj [] => [lbrace, rbrace]
  | .obj (p :: ps) =>
      lbrace :: ((quoteString p.1 ++ ':' :: cpValue p.2) ++ (cpMembers ps ++ [rbrace]))

def cpItems : List Json → List Char
  | [] => []
  | x :: xs => ',' :: (cpValue x ++ cpItems xs)

def cpMembers : List (String × Json) → List Char
  | [] => []
  | p :: ps => ',' :: ((quoteString p.1 ++ ':' :: cpValue p.2) ++ cpMembers ps)

end

/-! ### The result formatter (`resultFormatter.ts`) -/

namespace ResultFormatter

/-- `convertResultToString` from `resultFormatter.ts`: strings pass through
unquoted, numbers render via `toString()`, everything else via
`JSON.stringify(result)`. -/
def convertResultToString (result : Json) : String :=
  match result with
  | .str s => s
  | .num n => String.mk (intChars n)
  | r => String.mk (cpValue r)

/-- `format` from `resultFormatter.ts`: `JSON.stringify(results, null, 2)`
when `createJson`, otherwise the matches converted individually and joined
with a newline. -/
def format (results : List Json) (createJson : Bool) : String :=
  if createJson then String.mk (ppValue 0 (Json.arr results))
  else String.intercalate (String.mk ['\n']) (results.map convertResultToString)

end ResultFormatter

/-! ### Node count of a JSON tree -/

mutual

def sizeJ : Json → Nat
  | .arr l => 1 + sizeL l
  | .obj m => 1 + sizeM m
  | _ => 1

def sizeL : List Json → Nat
  | [] => 0
  | x :: xs => sizeJ x + sizeL xs

def sizeM : List (String × Json) → Nat
  | [] => 0
  | p :: ps => sizeJ p.2 + sizeM ps

end

theorem sizeJ_pos : ∀ j : Json, 0 < sizeJ j
  | .null => by simp [sizeJ]
  | .bool _ => by simp [sizeJ]
  | .num _ => by simp [sizeJ]
  | .str _ => by simp [sizeJ]
  | .arr _ => by simp [sizeJ]
  | .obj _ => by simp [sizeJ]

/-! ### Spec-side descriptions of the two formatter modes -/

/-- The spec's plain-text rendering of one match: a string match as its raw
text without quoting, a number match as its decimal text, and any other
value (boolean, null, array, object) as its compact JSON text. -/
def specPlainEntry : Json → String
  | .str s => s
  | .num n => String.mk (intChars n)
  | .bool b => String.mk (cpValue (.bool b))
  | .null => String.mk (cpValue .null)
  | .arr l => String.mk (cpValue (.arr l))
  | .obj m => String.mk (cpValue (.obj m))

/-- The spec's plain-text mode: render each match independently and join
with a single newline between entries, with no trailing newline. -/
def specPlainText (ms : List Json) : String :=
  String.intercalate "\n" (ms.map specPlainEntry)

/-- Join a list of character chunks with a separator between entries. -/
def joinSep (sep : List Char) : List (List Char) → List Char
  | [] => []
  | [x] => x
  | x :: xs => x ++ (sep ++ joinSep sep xs)

theorem ppItems_eq_joinSep (d : Nat) :
    ∀ l : List Json, ppItems d l = joinSep [',', '\n'] (l.map (fun j => spaces (2 * d) ++ ppValue d j))
  | [] => by simp [ppItems, joinSep]
  | [x] => by simp [ppItems, joinSep]
  | x :: y :: ys => by
      rw [ppItems, List.map_cons, ppItems_eq_joinSep d (y :: ys)]
      simp [joinSep]
      simp

theorem ppMembers_eq_joinSep (d : Nat) :
    ∀ l : List (String × Json),
      ppMembers d l =
        joinSep [',', '\n']
          (l.map (fun q => spaces (2 * d) ++ (quoteString q.1 ++ ':' :: ' ' :: ppValue d q.2)))
  | [] => by simp [ppMembers, joinSep]
  | [p] => by simp [ppMembers, joinSep]
  | p :: q :: qs => by
      rw [ppMembers, List.map_cons, ppMembers_eq_joinSep d (q :: qs)]
      simp [joinSep]
      simp

/-- Claim C2: with `asJson = false` the formatter renders each match
independently — strings raw, numbers as decimal text, everything else as
compact JSON — joined by single newlines with no trailing newline, and in
particular `format [42, "x", obj a 1] false` is the three-line output. -/
theorem plain_format_renders_each_match :
    (∀ ms : List Json, ResultFormatter.format ms false = specPlainText ms) ∧
    ResultFormatter.format [Json.num 42, Json.str "x", Json.obj [("a", Json.num 1)]] false
      = "42\nx\n\x7b\"a\":1\x7d" := by
  constructor
  · intro ms
    have h : ResultFormatter.convertResultToString = specPlainEntry := by
      funext j
      cases j <;> rfl
    simp [ResultFormatter.format, specPlainText, h]
  · rfl

/-- Claim C3: with `asJson = true` the formatter returns the Match Set
serialized as a two-space-indented JSON array holding exactly the
serializations of the matches in their original order, and objects keep
their fields in original order (no re-sorting of keys). -/
theorem json_format_is_indented_array :
    ResultFormatter.format [] true = "[]" ∧
    (∀ (x : Json) (xs : List Json),
      ResultFormatter.format (x :: xs) true =
        String.mk ('[' :: '\n' ::
          (joinSep [',', '\n'] ((x :: xs).map (fun j => spaces 2 ++ ppValue 1 j)) ++
            '\n' :: [']']))) ∧
    (∀ (d : Nat) (p : String × Json) (ps : List (String × Json)),
      ppValue d (.obj (p :: ps)) =
        lbrace :: '\n' ::
          (joinSep [',', '\n']
              ((p :: ps).map
                (fun q => spaces (2 * (d + 1)) ++ (quoteString q.1 ++ ':' :: ' ' :: ppValue (d + 1) q.2))) ++
            '\n' :: (spaces (2 * d) ++ [rbrace]))) := by
  refine ⟨rfl, ?_, ?_⟩
  · intro x xs
    simp [ResultFormatter.format, ppValue, ppItems_eq_joinSep, spaces]
  · intro d p ps
    rw [ppValue, ppMembers_eq_joinSep]

/-- Claim C5: the empty Match Set renders as the two-character array text in
JSON mode and as the empty string in plain mode. -/
theorem empty_match_set_rendering :
    ResultFormatter.format [] true = "[]" ∧ ResultFormatter.format [] false = "" :=
  ⟨rfl, rfl⟩

/-- Claim C7: the formatter is a pure deterministic function of its two
arguments — equal Match Sets and equal flags always yield the identical
output string; the embedding has no effects. -/
theorem format_pure_deterministic :
    ∀ (m₁ m₂ : List Json) (b₁ b₂ : Bool),
      m₁ = m₂ → b₁ = b₂ → ResultFormatter.format m₁ b₁ = ResultFormatter.format m₂ b₂ := by
  intro m₁ m₂ b₁ b₂ hm hb
  rw [hm, hb]

/-- Concrete instantiation of `format_pure_deterministic`. -/
theorem format_pure_deterministic_witness :
    ResultFormatter.format [Json.num 42] true = ResultFormatter.format [Json.num 42] true :=
  format_pure_deterministic [Json.num 42] [Json.num 42] true true rfl rfl

/-! ### A standard JSON reader (model of `JSON.parse`) -/

def isWsC (c : Char) : Bool := c = ' ' || c = '\n' || c = '\t' || c = '\r'

def skipWs : List Char → List Char
  | [] => []
  | c :: rest => if isWsC c then skipWs rest else c :: rest

def hexVal (c : Char) : Option Nat :=
  if c.isDigit then some (c.toNat - 48)
  else if 97 ≤ c.toNat ∧ c.toNat ≤ 102 then some (c.toNat - 87)
  else if 65 ≤ c.toNat ∧ c.toNat ≤ 70 then some (c.toNat - 55)
  else none

/-- Read the body of a JSON string literal up to its closing quote,
decoding the standard escapes. -/
def parseStringBody : List Char → Option (List Char × List Char)
  | [] => none
  | c :: rest =>
    if c = dquote then some ([], rest)
    else if c = bslash then
      match rest with
      | [] => none
      | e :: r2 =>
        if e = dquote then (parseStringBody r2).map (fun p => (dquote :: p.1, p.2))
        else if e = bslash then (parseStringBody r2).map (fun p => (bslash :: p.1, p.2))
        else if e = '/' then (parseStringBody r2).map (fun p => ('/' :: p.1, p.2))
        else if e = 'b' then (parseStringBody r2).map (fun p => (Char.ofNat 8 :: p.1, p.2))
        else if e = 'f' then (parseStringBody r2).map (fun p => (Char.ofNat 12 :: p.1, p.2))
        else if e = 'n' then (parseStringBody r2).map (fun p => ('\n' :: p.1, p.2))
        else if e = 'r' then (parseStringBody r2).map (fun p => ('\r' :: p.1, p.2))
        else if e = 't' then (parseStringBody r2).map (fun p => ('\t' :: p.1, p.2))
        else if e = 'u' then
          match r2 with
          | h1 :: h2 :: h3 :: h4 :: r3 =>
            match hexVal h1, hexVal h2, hexVal h3, hexVal h4 with
            | some a, some b, some c2, some d2 =>
              (parseStringBody r3).map
                (fun p => (Char.ofNat (((a * 16 + b) * 16 + c2) * 16 + d2) :: p.1, p.2))
            | _, _, _, _ => none
          | _ => none
        else none
    else if c.toNat < 32 then none
    else (parseStringBody rest).map (fun p => (c :: p.1, p.2))

/-- Accumulate a run of decimal digits. -/
def parseNatAux : List Char → Nat → Nat × List Char
  | [], acc => (acc, [])
  | c :: rest, acc =>
    if c.isDigit then parseNatAux rest (10 * acc + (c.toNat - 48)) else (acc, c :: rest)

def parseNatHead (l : List Char) : Option (Nat × List Char) :=
  match l with
  | [] => none
  | c :: _ => if c.isDigit then some (parseNatAux l 0) else none

/-- Strip an expected literal character sequence. -/
def eatLit : List Char → List Char → Option (List Char)
  | [], l => some l
  | _ :: _, [] => none
  | p :: ps, c :: cs => if c = p then eatLit ps cs else none

mutual

def parseValueF : Nat → List Char → Option (Json × List Char)
  | 0, _ => none
  | fuel + 1, input =>
    match skipWs input with
    | [] => none
    | c :: rest =>
      if c = dquote then
        match parseStringBody rest with
        | some (s, r) => some (.str (String.mk s), r)
        | none => none
      else if c = '[' then
        match skipWs rest with
        | [] => none
        | c2 :: r2 =>
          if c2 = ']' then some (.arr [], r2)
          else
            match parseItemsF fuel rest with
            | some (items, r3) => some (.arr items, r3)
            | none => none
      else if c = lbrace then
        match skipWs rest with
        | [] => none
        | c2 :: r2 =>
          if c2 = rbrace then some (.obj [], r2)
          else
            match parseMembersF fuel rest with
            | some (fields, r3) => some (.obj fields, r3)
            | none => none
      else if c = 'n' then
        match eatLit ['u', 'l', 'l'] rest with
        | some r => some (.null, r)
        | none => none
      else if c = 't' then
        match eatLit ['r', 'u', 'e'] rest with
        | some r => some (.bool true, r)
        | none => none
      else if c = 'f' then
        match eatLit ['a', 'l', 's', 'e'] rest with
        | some r => some (.bool false, r)
        | none => none
      else if c = '-' then
        match parseNatHead rest with
        | some (n, r) => some (.num (-(n : Int)), r)
        | none => none
      else if c.isDigit then
        match parseNatHead (c :: rest) with
        | some (n, r) => some (.num (n : Int), r)
        | none => none
      else none

def parseItemsF : Nat → List Char → Option (List Json × List Char)
  | 0, _ => none
  | fuel + 1, l =>
    match parseValueF fuel l with
    | none => none
    | some (v, r) =>
      match skipWs r with
      | [] => none
      | c :: r2 =>
        if c = ',' then
          match parseItemsF fuel r2 with
          | some (vs, r3) => some (v :: vs, r3)
          | none => none
        else if c = ']' then some ([v], r2)
        else none

def parseMembersF : Nat → List Char → Option (List (String × Json) × List Char)
  | 0, _ => none
  | fuel + 1, l =>
    match skipWs l with
    | [] => none
    | c :: r =>
      if c = dquote then
        match parseStringBody r with
        | none => none
        | some (k, r2) =>
          match skipWs r2 with
          | [] => none
          | c2 :: r3 =>
            if c2 = ':' then
              match parseValueF fuel r3 with
              | none => none
              | some (v, r4) =>
                match skipWs r4 with
                | [] => none
                | c3 :: r5 =>
                  if c3 = ',' then
                    match parseMembersF fuel r5 with
                    | some (ps, r6) => some ((String.mk k, v) :: ps, r6)
                    | none => none
                  else if c3 = rbrace then some ([(String.mk k, v)], r5)
                  else none
            else none
      else none

end

/-- `JSON.parse`: read one JSON value and require only whitespace after it. -/
def JSONparse (s : String) : Option Json :=
  match parseValueF (s.length + 1) s.data with
  | some (v, rest) => match skipWs rest with | [] => some v | _ :: _ => none
  | none => none

/-! ### Toolkit for the print/parse round trip -/

def allWs (l : List Char) : Prop := ∀ c ∈ l, isWsC c = true

def noDigitHead : List Char → Bool
  | [] => true
  | c :: _ => !c.isDigit

theorem allWs_nil : allWs [] := by intro c hc; cases hc

theorem allWs_spaces (n : Nat) : allWs (spaces n) := by
  intro c hc
  rw [spaces] at hc
  rw [List.eq_of_mem_replicate hc]
  decide

theorem allWs_newline : allWs ['\n'] := by
  intro c hc
  simp at hc
  rw [hc]
  decide

theorem allWs_append {a b : List Char} (ha : allWs a) (hb : allWs b) : allWs (a ++ b) := by
  intro c hc
  rcases List.mem_append.mp hc with h | h
  · exact ha c h
  · exact hb c h

theorem skipWs_nonws {c : Char} (l : List Char) (h : isWsC c = false) :
    skipWs (c :: l) = c :: l := by
  simp [skipWs, h]

theorem skipWs_ws {ws : List Char} (l : List Char) (h : allWs ws) :
    skipWs (ws ++ l) = skipWs l := by
  induction ws with
  | nil => rfl
  | cons c cs ih =>
      have hc : isWsC c = true := h c (by simp)
      have hcs : allWs cs := fun x hx => h x (by simp [hx])
      simp [skipWs, hc, ih hcs]

theorem skipWs_ws_cons {ws : List Char} {c : Char} (l : List Char)
    (h : allWs ws) (hc : isWsC c = false) : skipWs (ws ++ c :: l) = c :: l := by
  rw [skipWs_ws _ h, skipWs_nonws _ hc]

/-! Digit characters -/

theorem digitChar_isDigit {d : Nat} (h : d < 10) : (digitChar d).isDigit = true := by
  interval_cases d <;> decide

theorem digitChar_toNat {d : Nat} (h : d < 10) : (digitChar d).toNat = 48 + d := by
  interval_cases d <;> decide

theorem digit_not_ws {c : Char} (h : c.isDigit = true) : isWsC c = false := by
  cases hw : isWsC c
  · rfl
  · exfalso
    rw [isWsC] at hw
    simp only [Bool.or_eq_true, decide_eq_true_eq] at hw
    rcases hw with ((h1 | h2) | h3) | h4
    · subst h1; exact absurd h (by decide)
    · subst h2; exact absurd h (by decide)
    · subst h3; exact absurd h (by decide)
    · subst h4; exact absurd h (by decide)

/-! Reading back a printed natural number -/

def digitsFold (acc : Nat) (s : List Char) : Nat :=
  s.foldl (fun a c => 10 * a + (c.toNat - 48)) acc

theorem parseNatAux_digits (s : List Char) (hs : ∀ c ∈ s, c.isDigit = true) :
    ∀ (tail : List Char) (acc : Nat),
      parseNatAux (s ++ tail) acc = parseNatAux tail (digitsFold acc s) := by
  induction s with
  | nil => intro tail acc; rfl
  | cons c cs ih =>
      intro tail acc
      have hc : c.isDigit = true := hs c (by simp)
      have hcs : ∀ x ∈ cs, x.isDigit = true := fun x hx => hs x (by simp [hx])
      simp [parseNatAux, hc, ih hcs, digitsFold]

theorem parseNatAux_stop {tail : List Char} (acc : Nat) (h : noDigitHead tail = true) :
    parseNatAux tail acc = (acc, tail) := by
  cases tail with
  | nil => rfl
  | cons c cs =>
      have : c.isDigit = false := by
        rw [noDigitHead] at h
        cases hc : c.isDigit
        · rfl
        · rw [hc] at h; exact absurd h (by decide)
      simp [parseNatAux, this]

theorem natCharsAux_digits :
    ∀ (fuel n : Nat), ∀ c ∈ natCharsAux fuel n, c.isDigit = true := by
  intro fuel
  induction fuel with
  | zero => intro n c hc; cases hc
  | succ f ih =>
      intro n c hc
      rw [natCharsAux] at hc
      by_cases hn : n = 0
      · rw [if_pos hn] at hc; cases hc
      · rw [if_neg hn] at hc
        rcases List.mem_append.mp hc with h | h
        · exact ih _ c h
        · simp at h
          rw [h]
          exact digitChar_isDigit (Nat.mod_lt _ (by omega))

theorem natCharsAux_ne_nil {fuel n : Nat} (hn : 0 < n) (hf : n ≤ fuel) :
    natCharsAux fuel n ≠ [] := by
  cases fuel with
  | zero => omega
  | succ f =>
      rw [natCharsAux, if_neg (by omega)]
      simp

theorem digitsFold_natCharsAux :
    ∀ (fuel n acc : Nat), n ≤ fuel →
      digitsFold acc (natCharsAux fuel n) = acc * 10 ^ (natCharsAux fuel n).length + n := by
  intro fuel
  induction fuel with
  | zero => intro n acc h; interval_cases n; simp [natCharsAux, digitsFold]
  | succ f ih =>
      intro n acc h
      by_cases hn : n = 0
      · subst hn; simp [natCharsAux, digitsFold]
      · rw [natCharsAux, if_neg hn]
        have hdiv : n / 10 ≤ f := by
          have : n / 10 < n := Nat.div_lt_self (by omega) (by omega)
          omega
        rw [digitsFold, List.foldl_append]
        rw [show List.foldl (fun a c => 10 * a + (c.toNat - 48)) acc (natCharsAux f (n / 10))
              = digitsFold acc (natCharsAux f (n / 10)) from rfl]
        rw [ih (n / 10) acc hdiv]
        simp [List.foldl, digitChar_toNat (Nat.mod_lt n (show 0 < 10 by omega))]
        have hmod : 10 * (n / 10) + n % 10 = n := by omega
        calc 10 * (acc * 10 ^ (natCharsAux f (n / 10)).length + n / 10) + n % 10
            = acc * (10 ^ (natCharsAux f (n / 10)).length * 10) + (10 * (n / 10) + n % 10) := by
              ring
          _ = acc * 10 ^ ((natCharsAux f (n / 10)).length + 1) + n := by rw [hmod, pow_succ]

theorem parseNatHead_natChars {n : Nat} {tail : List Char} (h : noDigitHead tail = true) :
    parseNatHead (natChars n ++ tail) = some (n, tail) := by
  by_cases hn : n = 0
  · subst hn
    rw [natChars, if_pos rfl]
    rw [show ([digitChar 0] ++ tail) = digitChar 0 :: tail from rfl]
    rw [parseNatHead]
    rw [if_pos (digitChar_isDigit (by omega))]
    rw [show digitChar 0 :: tail = [digitChar 0] ++ tail from rfl]
    rw [parseNatAux_digits [digitChar 0] (by intro c hc; simp at hc; rw [hc]; decide)]
    rw [parseNatAux_stop _ h]
    simp [digitsFold, digitChar_toNat (show (0:Nat) < 10 by omega)]
  · have hpos : 0 < n := by omega
    obtain ⟨c, t, hct⟩ : ∃ c t, natCharsAux n n = c :: t := by
      cases hh : natCharsAux n n with
      | nil => exact absurd hh (natCharsAux_ne_nil hpos le_rfl)
      | cons c t => exact ⟨c, t, rfl⟩
    have hdig := natCharsAux_digits n n
    rw [natChars, if_neg hn, hct]
    rw [show (c :: t) ++ tail = c :: (t ++ tail) from rfl]
    rw [parseNatHead]
    rw [if_pos (hdig c (by rw [hct]; simp))]
    rw [show c :: (t ++ tail) = (c :: t) ++ tail from rfl, ← hct]
    rw [parseNatAux_digits _ hdig, parseNatAux_stop _ h]
    rw [digitsFold_natCharsAux n n 0 le_rfl]
    simp

theorem mk_data (s : String) : String.mk s.data = s := by
  cases s
  rfl

theorem hexVal_hexDigitChar {d : Nat} (h : d < 16) : hexVal (hexDigitChar d) = some d := by
  interval_cases d <;> decide

/-- Reading back a quoted string body recovers the original characters. -/
theorem parseStringBody_quote :
    ∀ (cs tail : List Char),
      parseStringBody (cs.flatMap escapeChar ++ dquote :: tail) = some (cs, tail) := by
  intro cs
  induction cs with
  | nil =>
      intro tail
      rw [List.flatMap_nil, List.nil_append, parseStringBody.eq_def]
      simp
  | cons c cs ih =>
      intro tail
      rw [List.flatMap_cons, List.append_assoc]
      by_cases h1 : c = dquote
      · subst h1
        simp only [show escapeChar dquote = [bslash, dquote] from by decide, List.cons_append,
          List.nil_append]
        rw [parseStringBody.eq_def]
        simp +decide [ih]
      · by_cases h2 : c = bslash
        · subst h2
          simp only [show escapeChar bslash = [bslash, bslash] from by decide, List.cons_append,
            List.nil_append]
          rw [parseStringBody.eq_def]
          simp +decide [ih]
        · by_cases h3 : c = Char.ofNat 8
          · subst h3
            simp only [show escapeChar (Char.ofNat 8) = [bslash, 'b'] from by decide,
              List.cons_append, List.nil_append]
            rw [parseStringBody.eq_def]
            simp +decide [ih]
          · by_cases h4 : c = Char.ofNat 12
            · subst h4
              simp only [show escapeChar (Char.ofNat 12) = [bslash, 'f'] from by decide,
                List.cons_append, List.nil_append]
              rw [parseStringBody.eq_def]
              simp +decide [ih]
            · by_cases h5 : c = '\n'
              · subst h5
                simp only [show escapeChar '\n' = [bslash, 'n'] from by decide, List.cons_append,
                  List.nil_append]
                rw [parseStringBody.eq_def]
                simp +decide [ih]
              · by_cases h6 : c = '\r'
                · subst h6
                  simp only [show escapeChar '\r' = [bslash, 'r'] from by decide,
                    List.cons_append, List.nil_append]
                  rw [parseStringBody.eq_def]
                  simp +decide [ih]
                · by_cases h7 : c = '\t'
                  · subst h7
                    simp only [show escapeChar '\t' = [bslash, 't'] from by decide,
                      List.cons_append, List.nil_append]
                    rw [parseStringBody.eq_def]
                    simp +decide [ih]
                  · by_cases h8 : c.toNat < 32
                    · have hd1 : c.toNat / 16 < 16 := by omega
                      have hd2 : c.toNat % 16 < 16 := Nat.mod_lt _ (by omega)
                      rw [escapeChar, if_neg h1, if_neg h2, if_neg h3, if_neg h4,
                        if_neg h5, if_neg h6, if_neg h7, if_pos h8]
                      simp only [List.cons_append, List.nil_append]
                      rw [parseStringBody.eq_def]
                      simp +decide [hexVal_hexDigitChar hd1, hexVal_hexDigitChar hd2,
                        show hexVal '0' = some 0 from by decide, ih]
                      rw [show c.toNat / 16 * 16 + c.toNat % 16 = c.toNat from by omega,
                        Char.ofNat_toNat]
                    · rw [escapeChar, if_neg h1, if_neg h2, if_neg h3, if_neg h4,
                        if_neg h5, if_neg h6, if_neg h7, if_neg h8]
                      simp only [List.cons_append, List.nil_append]
                      rw [parseStringBody.eq_def]
                      simp [h1, h2, h8, ih]

/-! ### Fuel bounds for the reader -/

mutual

def fuelV : Json → Nat
  | .arr l => 1 + fuelL l
  | .obj m => 1 + fuelM m
  | _ => 1

def fuelL : List Json → Nat
  | [] => 1
  | x :: xs => 1 + fuelV x + fuelL xs

def fuelM : List (String × Json) → Nat
  | [] => 1
  | p :: ps => 1 + fuelV p.2 + fuelM ps

end

theorem fuelV_pos : ∀ j : Json, 0 < fuelV j
  | .null => by simp [fuelV]
  | .bool _ => by simp [fuelV]
  | .num _ => by simp [fuelV]
  | .str _ => by simp [fuelV]
  | .arr _ => by simp [fuelV]
  | .obj _ => by simp [fuelV]

/-! ### The first character of a printed value -/

theorem digit_ne {c a : Char} (h : c.isDigit = true) (ha : a.isDigit = false) : ¬(c = a) := by
  intro e
  rw [e, ha] at h
  cases h

theorem natChars_head (n : Nat) :
    ∃ c t, natChars n = c :: t ∧ c.isDigit = true := by
  by_cases hn : n = 0
  · subst hn
    refine ⟨digitChar 0, [], ?_, by decide⟩
    rw [natChars, if_pos rfl]
  · have hpos : 0 < n := by omega
    cases hh : natCharsAux n n with
    | nil => exact absurd hh (natCharsAux_ne_nil hpos le_rfl)
    | cons c t =>
        refine ⟨c, t, ?_, natCharsAux_digits n n c (by rw [hh]; simp)⟩
        rw [natChars, if_neg hn, hh]

theorem intChars_head (i : Int) :
    ∃ c t, intChars i = c :: t ∧ isWsC c = false ∧ ¬(c = ']') ∧ ¬(c = rbrace) := by
  by_cases hi : i < 0
  · exact ⟨'-', natChars i.natAbs, by rw [intChars, if_pos hi], by decide, by decide, by decide⟩
  · obtain ⟨c, t, hct, hcd⟩ := natChars_head i.natAbs
    exact ⟨c, t, by rw [intChars, if_neg hi, hct], digit_not_ws hcd,
      digit_ne hcd (by decide), digit_ne hcd (by decide)⟩

theorem ppValue_head (d : Nat) (j : Json) :
    ∃ c t, ppValue d j = c :: t ∧ isWsC c = false ∧ ¬(c = ']') ∧ ¬(c = rbrace) := by
  cases j with
  | null => exact ⟨'n', ['u', 'l', 'l'], by rw [ppValue], by decide, by decide, by decide⟩
  | bool b =>
      cases b
      · exact ⟨'f', ['a', 'l', 's', 'e'], by rw [ppValue], by decide, by decide, by decide⟩
      · exact ⟨'t', ['r', 'u', 'e'], by rw [ppValue], by decide, by decide, by decide⟩
  | num i =>
      obtain ⟨c, t, hct, h1, h2, h3⟩ := intChars_head i
      exact ⟨c, t, by rw [ppValue, hct], h1, h2, h3⟩
  | str s =>
      exact ⟨dquote, s.data.flatMap escapeChar ++ [dquote], by rw [ppValue, quoteString],
        by decide, by decide, by decide⟩
  | arr l =>
      cases l with
      | nil => exact ⟨'[', [']'], by rw [ppValue], by decide, by decide, by decide⟩
      | cons x xs =>
          exact ⟨'[', '\n' :: (ppItems (d + 1) (x :: xs) ++ '\n' :: (spaces (2 * d) ++ [']'])),
            by rw [ppValue], by decide, by decide, by decide⟩
  | obj l =>
      cases l with
      | nil => exact ⟨lbrace, [rbrace], by rw [ppValue], by decide, by decide, by decide⟩
      | cons p ps =>
          exact ⟨lbrace,
            '\n' :: (ppMembers (d + 1) (p :: ps) ++ '\n' :: (spaces (2 * d) ++ [rbrace])),
            by rw [ppValue], by decide, by decide, by decide⟩

theorem ppItems_cons_shape (d : Nat) (x : Json) (xs : List Json) :
    ∃ suf, ppItems d (x :: xs) = spaces (2 * d) ++ (ppValue d x ++ suf) := by
  cases xs with
  | nil => exact ⟨[], by rw [ppItems]; simp⟩
  | cons y ys =>
      refine ⟨',' :: '\n' :: ppItems d (y :: ys), ?_⟩
      rw [ppItems]
      · simp
      · simp

theorem ppMembers_cons_shape (d : Nat) (p : String × Json) (ps : List (String × Json)) :
    ∃ suf, ppMembers d (p :: ps)
      = spaces (2 * d) ++ (quoteString p.1 ++ ':' :: ' ' :: (ppValue d p.2 ++ suf)) := by
  cases ps with
  | nil => exact ⟨[], by rw [ppMembers]; simp⟩
  | cons q qs =>
      refine ⟨',' :: '\n' :: ppMembers d (q :: qs), ?_⟩
      rw [ppMembers]
      · simp
      · simp

theorem allWs_cons_newline {l : List Char} (h : allWs l) : allWs ('\n' :: l) := by
  intro c hc
  rcases List.mem_cons.mp hc with h1 | h1
  · rw [h1]; decide
  · exact h c h1

theorem allWs_space : allWs [' '] := by
  intro c hc
  simp at hc
  rw [hc]
  decide

theorem skipWs_newline_ws {wsEnd : List Char} (hwe : allWs wsEnd) (c : Char) (l : List Char)
    (hc : isWsC c = false) : skipWs ('\n' :: (wsEnd ++ c :: l)) = c :: l := by
  rw [show '\n' :: (wsEnd ++ c :: l) = ('\n' :: wsEnd) ++ c :: l from rfl]
  exact skipWs_ws_cons _ (allWs_cons_newline hwe) hc

mutual

/-- Reading back a printed value, allowing leading whitespace; the remainder
must not begin with a digit. -/
theorem rt_value (j : Json) (fuel d : Nat) (ws rest : List Char)
    (hf : fuelV j ≤ fuel) (hws : allWs ws) (hnd : noDigitHead rest = true) :
    parseValueF fuel (ws ++ (ppValue d j ++ rest)) = some (j, rest) := by
  obtain ⟨f, rfl⟩ : ∃ f, fuel = f + 1 := by
    cases fuel with
    | zero => exact absurd hf (by have := fuelV_pos j; omega)
    | succ f => exact ⟨f, rfl⟩
  cases j with
  | null =>
      rw [ppValue]
      simp only [List.cons_append, List.nil_append]
      simp only [parseValueF]
      rw [skipWs_ws_cons _ hws (by decide)]
      simp +decide [eatLit]
  | bool b =>
      cases b
      · rw [ppValue]
        simp only [List.cons_append, List.nil_append]
        simp only [parseValueF]
        rw [skipWs_ws_cons _ hws (by decide)]
        simp +decide [eatLit]
      · rw [ppValue]
        simp only [List.cons_append, List.nil_append]
        simp only [parseValueF]
        rw [skipWs_ws_cons _ hws (by decide)]
        simp +decide [eatLit]
  | str s =>
      rw [ppValue, quoteString]
      simp only [List.cons_append, List.nil_append, List.append_assoc]
      simp only [parseValueF]
      rw [skipWs_ws_cons _ hws (by decide)]
      simp +decide [parseStringBody_quote, mk_data]
  | num i =>
      rw [ppValue]
      by_cases hi : i < 0
      · rw [intChars, if_pos hi]
        simp only [List.cons_append, List.nil_append]
        simp only [parseValueF]
        rw [skipWs_ws_cons _ hws (by decide)]
        have hp : parseNatHead (natChars i.natAbs ++ rest) = some (i.natAbs, rest) :=
          parseNatHead_natChars hnd
        have hneg : (-(i.natAbs : Int)) = i := by omega
        have hnegAbs : -|i| = i := by rw [abs_of_neg hi]; ring
        simp +decide [hp, hneg, hnegAbs]
      · rw [intChars, if_neg hi]
        obtain ⟨c, t, hct, hcd⟩ := natChars_head i.natAbs
        rw [hct]
        simp only [List.cons_append]
        simp only [parseValueF]
        rw [skipWs_ws_cons _ hws (digit_not_ws hcd)]
        have hp : parseNatHead (c :: (t ++ rest)) = some (i.natAbs, rest) := by
          rw [show c :: (t ++ rest) = (c :: t) ++ rest from rfl, ← hct]
          exact parseNatHead_natChars hnd
        have hpos : ((i.natAbs : Int)) = i := by omega
        have hposAbs : |i| = i := abs_of_nonneg (by omega)
        simp +decide [hp, hpos, hposAbs, hcd,
          digit_ne hcd (show dquote.isDigit = false from by decide),
          digit_ne hcd (show ('[').isDigit = false from by decide),
          digit_ne hcd (show lbrace.isDigit = false from by decide),
          digit_ne hcd (show ('n').isDigit = false from by decide),
          digit_ne hcd (show ('t').isDigit = false from by decide),
          digit_ne hcd (show ('f').isDigit = false from by decide),
          digit_ne hcd (show ('-').isDigit = false from by decide)]
  | arr l =>
      cases l with
      | nil =>
          rw [ppValue]
          simp only [List.cons_append, List.nil_append]
          simp only [parseValueF]
          rw [skipWs_ws_cons _ hws (by decide)]
          have hsk : skipWs (']' :: rest) = ']' :: rest := skipWs_nonws _ (by decide)
          simp +decide [hsk]
      | cons x xs =>
          rw [ppValue]
          simp only [List.cons_append, List.nil_append, List.append_assoc]
          simp only [parseValueF]
          rw [skipWs_ws_cons _ hws (by decide)]
          obtain ⟨suf, hsuf⟩ := ppItems_cons_shape (d + 1) x xs
          obtain ⟨c0, t0, hct, hcw, hcb, hcr⟩ := ppValue_head (d + 1) x
          have hskip :
              skipWs ('\n' :: (ppItems (d + 1) (x :: xs) ++ '\n' :: (spaces (2 * d) ++ ']' :: rest)))
                = c0 :: (t0 ++ (suf ++ '\n' :: (spaces (2 * d) ++ ']' :: rest))) := by
            rw [hsuf, hct]
            rw [show '\n' :: ((spaces (2 * (d + 1)) ++ (c0 :: t0 ++ suf)) ++
                  '\n' :: (spaces (2 * d) ++ ']' :: rest))
                = ('\n' :: spaces (2 * (d + 1))) ++
                  (c0 :: (t0 ++ (suf ++ '\n' :: (spaces (2 * d) ++ ']' :: rest)))) from by simp]
            rw [skipWs_ws_cons _ (allWs_cons_newline (allWs_spaces _)) hcw]
          have hri := rt_items x xs f (d + 1) ['\n'] (spaces (2 * d)) rest
            (by simp only [fuelV] at hf; omega) allWs_newline (allWs_spaces _)
          simp only [List.cons_append, List.nil_append] at hri
          simp +decide [hskip, hcb, hri]
  | obj l =>
      cases l with
      | nil =>
          rw [ppValue]
          simp only [List.cons_append, List.nil_append]
          simp only [parseValueF]
          rw [skipWs_ws_cons _ hws (by decide)]
          have hsk : skipWs (rbrace :: rest) = rbrace :: rest := skipWs_nonws _ (by decide)
          simp +decide [hsk]
      | cons p ps =>
          rw [ppValue]
          simp only [List.cons_append, List.nil_append, List.append_assoc]
          simp only [parseValueF]
          rw [skipWs_ws_cons _ hws (by decide)]
          obtain ⟨suf, hsuf⟩ := ppMembers_cons_shape (d + 1) p ps
          have hskip :
              skipWs ('\n' :: (ppMembers (d + 1) (p :: ps) ++ '\n' ::
                  (spaces (2 * d) ++ rbrace :: rest)))
                = dquote :: ((p.1.data.flatMap escapeChar ++ [dquote]) ++
                    (':' :: ' ' :: (ppValue (d + 1) p.2 ++ suf) ++
                      '\n' :: (spaces (2 * d) ++ rbrace :: rest))) := by
            rw [hsuf, quoteString]
            rw [show '\n' :: ((spaces (2 * (d + 1)) ++
                  ((dquote :: (p.1.data.flatMap escapeChar ++ [dquote])) ++
                    ':' :: ' ' :: (ppValue (d + 1) p.2 ++ suf))) ++
                  '\n' :: (spaces (2 * d) ++ rbrace :: rest))
                = ('\n' :: spaces (2 * (d + 1))) ++
                  (dquote :: ((p.1.data.flatMap escapeChar ++ [dquote]) ++
                    (':' :: ' ' :: (ppValue (d + 1) p.2 ++ suf) ++
                      '\n' :: (spaces (2 * d) ++ rbrace :: rest)))) from by simp]
            rw [skipWs_ws_cons _ (allWs_cons_newline (allWs_spaces _)) (by decide)]
          have hrm := rt_members p ps f (d + 1) ['\n'] (spaces (2 * d)) rest
            (by simp only [fuelV] at hf; omega) allWs_newline (allWs_spaces _)
          simp only [List.cons_append, List.nil_append] at hrm
          simp +decide [hskip, hrm]
termination_by 2 * sizeOf j
decreasing_by
  all_goals subst_vars
  all_goals simp
  all_goals omega

/-- Reading back a printed comma-separated item list with its closing
bracket. -/
theorem rt_items (x : Json) (xs : List Json) (fuel d : Nat) (ws wsEnd rest : List Char)
    (hf : fuelL (x :: xs) ≤ fuel) (hws : allWs ws) (hwe : allWs wsEnd) :
    parseItemsF fuel (ws ++ (ppItems d (x :: xs) ++ '\n' :: (wsEnd ++ ']' :: rest)))
      = some (x :: xs, rest) := by
  obtain ⟨f, rfl⟩ : ∃ f, fuel = f + 1 := by
    cases fuel with
    | zero => exact absurd hf (by simp only [fuelL]; omega)
    | succ f => exact ⟨f, rfl⟩
  cases xs with
  | nil =>
      rw [ppItems]
      simp only [parseItemsF, List.append_assoc]
      have hrv := rt_value x f d (ws ++ spaces (2 * d)) ('\n' :: (wsEnd ++ ']' :: rest))
        (by simp only [fuelL] at hf; omega) (allWs_append hws (allWs_spaces _)) rfl
      simp only [List.append_assoc] at hrv
      have hsk := skipWs_newline_ws hwe ']' rest (by decide)
      simp +decide [hrv, hsk]
  | cons y ys =>
      rw [ppItems]
      · simp only [parseItemsF, List.append_assoc, List.cons_append]
        have hrv := rt_value x f d (ws ++ spaces (2 * d))
          (',' :: '\n' :: (ppItems d (y :: ys) ++ '\n' :: (wsEnd ++ ']' :: rest)))
          (by simp only [fuelL] at hf; omega) (allWs_append hws (allWs_spaces _)) rfl
        simp only [List.append_assoc] at hrv
        have hri := rt_items y ys f d ['\n'] wsEnd rest
          (by simp only [fuelL] at hf ⊢; omega) allWs_newline hwe
        simp only [List.cons_append, List.nil_append] at hri
        have hsk : skipWs (',' :: '\n' :: (ppItems d (y :: ys) ++ '\n' :: (wsEnd ++ ']' :: rest)))
            = ',' :: '\n' :: (ppItems d (y :: ys) ++ '\n' :: (wsEnd ++ ']' :: rest)) :=
          skipWs_nonws _ (by decide)
        simp +decide [hrv, hri, hsk]
      · simp
termination_by 2 * sizeOf (x :: xs) + 1
decreasing_by
  all_goals subst_vars
  all_goals simp
  all_goals omega

/-- Reading back a printed comma-separated member list with its closing
brace. -/
theorem rt_members (kv : String × Json) (ps : List (String × Json)) (fuel d : Nat)
    (ws wsEnd rest : List Char)
    (hf : fuelM (kv :: ps) ≤ fuel) (hws : allWs ws) (hwe : allWs wsEnd) :
    parseMembersF fuel (ws ++ (ppMembers d (kv :: ps) ++ '\n' :: (wsEnd ++ rbrace :: rest)))
      = some (kv :: ps, rest) := by
  obtain ⟨f, rfl⟩ : ∃ f, fuel = f + 1 := by
    cases fuel with
    | zero => exact absurd hf (by simp only [fuelM]; omega)
    | succ f => exact ⟨f, rfl⟩
  cases ps with
  | nil =>
      rw [ppMembers, quoteString]
      simp only [parseMembersF, List.append_assoc, List.cons_append, List.nil_append]
      rw [show ws ++ (spaces (2 * d) ++ (dquote :: (kv.1.data.flatMap escapeChar ++
            dquote :: ':' :: ' ' :: (ppValue d kv.2 ++ '\n' :: (wsEnd ++ rbrace :: rest)))))
          = (ws ++ spaces (2 * d)) ++ (dquote :: (kv.1.data.flatMap escapeChar ++
            dquote :: ':' :: ' ' :: (ppValue d kv.2 ++ '\n' :: (wsEnd ++ rbrace :: rest))))
          from by simp]
      rw [skipWs_ws_cons _ (allWs_append hws (allWs_spaces _)) (by decide)]
      have hq : parseStringBody (kv.1.data.flatMap escapeChar ++
            dquote :: ':' :: ' ' :: (ppValue d kv.2 ++ '\n' :: (wsEnd ++ rbrace :: rest)))
          = some (kv.1.data, ':' :: ' ' :: (ppValue d kv.2 ++ '\n' :: (wsEnd ++ rbrace :: rest))) :=
        parseStringBody_quote _ _
      have hrv := rt_value kv.2 f d [' '] ('\n' :: (wsEnd ++ rbrace :: rest))
        (by simp only [fuelM] at hf; omega) allWs_space rfl
      simp only [List.cons_append, List.nil_append] at hrv
      have hsk := skipWs_newline_ws hwe rbrace rest (by decide)
      have hskc : skipWs (':' :: ' ' :: (ppValue d kv.2 ++ '\n' :: (wsEnd ++ rbrace :: rest)))
          = ':' :: ' ' :: (ppValue d kv.2 ++ '\n' :: (wsEnd ++ rbrace :: rest)) :=
        skipWs_nonws _ (by decide)
      simp +decide [hq, hrv, hsk, hskc, mk_data]
  | cons q qs =>
      rw [ppMembers]
      · rw [quoteString]
        simp only [parseMembersF, List.append_assoc, List.cons_append, List.nil_append]
        rw [show ws ++ (spaces (2 * d) ++ (dquote :: (kv.1.data.flatMap escapeChar ++
              dquote :: ':' :: ' ' :: (ppValue d kv.2 ++ ',' :: '\n' ::
                (ppMembers d (q :: qs) ++ '\n' :: (wsEnd ++ rbrace :: rest))))))
            = (ws ++ spaces (2 * d)) ++ (dquote :: (kv.1.data.flatMap escapeChar ++
              dquote :: ':' :: ' ' :: (ppValue d kv.2 ++ ',' :: '\n' ::
                (ppMembers d (q :: qs) ++ '\n' :: (wsEnd ++ rbrace :: rest)))))
            from by simp]
        rw [skipWs_ws_cons _ (allWs_append hws (allWs_spaces _)) (by decide)]
        have hq : parseStringBody (kv.1.data.flatMap escapeChar ++
              dquote :: ':' :: ' ' :: (ppValue d kv.2 ++ ',' :: '\n' ::
                (ppMembers d (q :: qs) ++ '\n' :: (wsEnd ++ rbrace :: rest))))
            = some (kv.1.data, ':' :: ' ' :: (ppValue d kv.2 ++ ',' :: '\n' ::
                (ppMembers d (q :: qs) ++ '\n' :: (wsEnd ++ rbrace :: rest)))) :=
          parseStringBody_quote _ _
        have hrv := rt_value kv.2 f d [' ']
          (',' :: '\n' :: (ppMembers d (q :: qs) ++ '\n' :: (wsEnd ++ rbrace :: rest)))
          (by simp only [fuelM] at hf; omega) allWs_space rfl
        simp only [List.cons_append, List.nil_append] at hrv
        have hrm := rt_members q qs f d ['\n'] wsEnd rest
          (by simp only [fuelM] at hf ⊢; omega) allWs_newline hwe
        simp only [List.cons_append, List.nil_append] at hrm
        have hskc : skipWs (':' :: ' ' :: (ppValue d kv.2 ++ ',' :: '\n' ::
              (ppMembers d (q :: qs) ++ '\n' :: (wsEnd ++ rbrace :: rest))))
            = ':' :: ' ' :: (ppValue d kv.2 ++ ',' :: '\n' ::
              (ppMembers d (q :: qs) ++ '\n' :: (wsEnd ++ rbrace :: rest))) :=
          skipWs_nonws _ (by decide)
        have hsk2 : skipWs (',' :: '\n' :: (ppMembers d (q :: qs) ++ '\n' ::
              (wsEnd ++ rbrace :: rest)))
            = ',' :: '\n' :: (ppMembers d (q :: qs) ++ '\n' :: (wsEnd ++ rbrace :: rest)) :=
          skipWs_nonws _ (by decide)
        simp +decide [hq, hrv, hrm, hskc, hsk2, mk_data]
      · simp
termination_by 2 * sizeOf (kv :: ps) + 1
decreasing_by
  all_goals subst_vars
  all_goals cases kv
  all_goals simp
  all_goals omega

end

mutual

theorem fuelV_le_len (j : Json) (d : Nat) : fuelV j ≤ (ppValue d j).length := by
  cases j with
  | null => simp [fuelV, ppValue]
  | bool b => cases b <;> simp [fuelV, ppValue]
  | num i =>
      obtain ⟨c, t, hct, _, _, _⟩ := intChars_head i
      rw [ppValue, hct]
      simp [fuelV]
  | str s =>
      rw [ppValue, quoteString]
      simp [fuelV]
  | arr l =>
      cases l with
      | nil => simp [fuelV, fuelL, ppValue]
      | cons x xs =>
          have hb := fuelL_le_len x xs (d + 1)
          rw [ppValue]
          simp only [fuelV, List.length_cons, List.length_append, spaces,
            List.length_replicate]
          omega
  | obj l =>
      cases l with
      | nil => simp [fuelV, fuelM, ppValue]
      | cons p ps =>
          have hb := fuelM_le_len p ps (d + 1)
          rw [ppValue]
          simp only [fuelV, List.length_cons, List.length_append, spaces,
            List.length_replicate]
          omega
termination_by 2 * sizeOf j
decreasing_by
  all_goals subst_vars
  all_goals simp
  all_goals omega

theorem fuelL_le_len (x : Json) (xs : List Json) (d : Nat) :
    fuelL (x :: xs) ≤ (ppItems d (x :: xs)).length + 2 := by
  cases xs with
  | nil =>
      have ha := fuelV_le_len x d
      rw [ppItems]
      simp only [fuelL, List.length_append, spaces, List.length_replicate]
      omega
  | cons y ys =>
      have ha := fuelV_le_len x d
      have hb := fuelL_le_len y ys d
      rw [ppItems]
      · simp only [fuelL, List.length_append, List.length_cons, spaces,
          List.length_replicate]
        simp only [fuelL] at hb
        omega
      · simp
termination_by 2 * sizeOf (x :: xs) + 1
decreasing_by
  all_goals subst_vars
  all_goals simp
  all_goals omega

theorem fuelM_le_len (kv : String × Json) (ps : List (String × Json)) (d : Nat) :
    fuelM (kv :: ps) ≤ (ppMembers d (kv :: ps)).length + 2 := by
  cases ps with
  | nil =>
      have ha := fuelV_le_len kv.2 d
      rw [ppMembers]
      simp only [fuelM, List.length_append, List.length_cons, spaces,
        List.length_replicate]
      omega
  | cons q qs =>
      have ha := fuelV_le_len kv.2 d
      have hb := fuelM_le_len q qs d
      rw [ppMembers]
      · simp only [fuelM, List.length_append, List.length_cons, spaces,
          List.length_replicate]
        simp only [fuelM] at hb
        omega
      · simp
termination_by 2 * sizeOf (kv :: ps) + 1
decreasing_by
  all_goals subst_vars
  all_goals cases kv
  all_goals simp
  all_goals omega

end

/-- Claim C4: parsing the JSON-mode output of the formatter with the
standard JSON reader recovers the Match Set exactly, in order. -/
theorem format_roundtrip (ms : List Json) :
    JSONparse (ResultFormatter.format ms true) = some (Json.arr ms) := by
  rw [ResultFormatter.format, if_pos rfl, JSONparse]
  have hrt := rt_value (Json.arr ms) ((ppValue 0 (Json.arr ms)).length + 1) 0 [] []
    (by have := fuelV_le_len (Json.arr ms) 0; omega) allWs_nil rfl
  simp only [List.nil_append, List.append_nil] at hrt
  simp [hrt, skipWs]

/-! ### Fueled printers: totality of the formatter with an explicit bound -/

mutual

def ppValueF : Nat → Nat → Json → Option (List Char)
  | 0, _, _ => none
  | fuel + 1, d, j =>
    match j with
    | .null => some ('n' :: 'u' :: 'l' :: 'l' :: [])
    | .bool true => some ('t' :: 'r' :: 'u' :: 'e' :: [])
    | .bool false => some ('f' :: 'a' :: 'l' :: 's' :: 'e' :: [])
    | .num i => some (intChars i)
    | .str s => some (quoteString s)
    | .arr [] => some ['[', ']']
    | .arr (x :: xs) =>
        match ppItemsF fuel (d + 1) (x :: xs) with
        | some body => some ('[' :: '\n' :: (body ++ '\n' :: (spaces (2 * d) ++ [']'])))
        | none => none
    | .obj [] => some [lbrace, rbrace]
    | .obj (p :: ps) =>
        match ppMembersF fuel (d + 1) (p :: ps) with
        | some body => some (lbrace :: '\n' :: (body ++ '\n' :: (spaces (2 * d) ++ [rbrace])))
        | none => none

def ppItemsF : Nat → Nat → List Json → Option (List Char)
  | 0, _, _ => none
  | fuel + 1, d, l =>
    match l with
    | [] => some []
    | [x] =>
        match ppValueF fuel d x with
        | some vx => some (spaces (2 * d) ++ vx)
        | none => none
    | x :: xs =>
        match ppValueF fuel d x, ppItemsF fuel d xs with
        | some vx, some body => some ((spaces (2 * d) ++ vx) ++ ',' :: '\n' :: body)
        | _, _ => none

def ppMembersF : Nat → Nat → List (String × Json) → Option (List Char)
  | 0, _, _ => none
  | fuel + 1, d, l =>
    match l with
    | [] => some []
    | [p] =>
        match ppValueF fuel d p.2 with
        | some vv => some (spaces (2 * d) ++ (quoteString p.1 ++ ':' :: ' ' :: vv))
        | none => none
    | p :: ps =>
        match ppValueF fuel d p.2, ppMembersF fuel d ps with
        | some vv, some body =>
            some ((spaces (2 * d) ++ (quoteString p.1 ++ ':' :: ' ' :: vv)) ++ ',' :: '\n' :: body)
        | _, _ => none

end

mutual

def cpValueF : Nat → Json → Option (List Char)
  | 0, _ => none
  | fuel + 1, j =>
    match j with
    | .null => some ('n' :: 'u' :: 'l' :: 'l' :: [])
    | .bool true => some ('t' :: 'r' :: 'u' :: 'e' :: [])
    | .bool false => some ('f' :: 'a' :: 'l' :: 's' :: 'e' :: [])
    | .num i => some (intChars i)
    | .str s => some (quoteString s)
    | .arr [] => some ['[', ']']
    | .arr (x :: xs) =>
        match cpValueF fuel x, cpItemsF fuel xs with
        | some vx, some body => some ('[' :: (vx ++ (body ++ [']'])))
        | _, _ => none
    | .obj [] => some [lbrace, rbrace]
    | .obj (p :: ps) =>
        match cpValueF fuel p.2, cpMembersF fuel ps with
        | some vv, some body =>
            some (lbrace :: ((quoteString p.1 ++ ':' :: vv) ++ (body ++ [rbrace])))
        | _, _ => none

def cpItemsF : Nat → List Json → Option (List Char)
  | 0, _ => none
  | fuel + 1, l =>
    match l with
    | [] => some []
    | x :: xs =>
        match cpValueF fuel x, cpItemsF fuel xs with
        | some vx, some body => some (',' :: (vx ++ body))
        | _, _ => none

def cpMembersF : Nat → List (String × Json) → Option (List Char)
  | 0, _ => none
  | fuel + 1, l =>
    match l with
    | [] => some []
    | p :: ps =>
        match cpValueF fuel p.2, cpMembersF fuel ps with
        | some vv, some body => some (',' :: ((quoteString p.1 ++ ':' :: vv) ++ body))
        | _, _ => none

end

theorem fuelL_pos : ∀ l : List Json, 0 < fuelL l
  | [] => by simp [fuelL]
  | _ :: _ => by simp [fuelL]

theorem fuelM_pos : ∀ l : List (String × Json), 0 < fuelM l
  | [] => by simp [fuelM]
  | _ :: _ => by simp [fuelM]

mutual

theorem ppValueF_eq (j : Json) (fuel d : Nat) (hf : fuelV j ≤ fuel) :
    ppValueF fuel d j = some (ppValue d j) := by
  obtain ⟨f, rfl⟩ : ∃ f, fuel = f + 1 := by
    cases fuel with
    | zero => exact absurd hf (by have := fuelV_pos j; omega)
    | succ f => exact ⟨f, rfl⟩
  cases j with
  | null => rfl
  | bool b => cases b <;> rfl
  | num i => rfl
  | str s => rfl
  | arr l =>
      cases l with
      | nil => rfl
      | cons x xs =>
          have hi := ppItemsF_eq (x :: xs) f (d + 1) (by simp only [fuelV] at hf; omega)
          simp [ppValueF, ppValue, hi]
  | obj l =>
      cases l with
      | nil => rfl
      | cons p ps =>
          have hi := ppMembersF_eq (p :: ps) f (d + 1) (by simp only [fuelV] at hf; omega)
          simp [ppValueF, ppValue, hi]
termination_by 2 * sizeOf j
decreasing_by
  all_goals subst_vars
  all_goals try cases p
  all_goals simp
  all_goals omega

theorem ppItemsF_eq (l : List Json) (fuel d : Nat) (hf : fuelL l ≤ fuel) :
    ppItemsF fuel d l = some (ppItems d l) := by
  obtain ⟨f, rfl⟩ : ∃ f, fuel = f + 1 := by
    cases fuel with
    | zero => exact absurd hf (by have := fuelL_pos l; omega)
    | succ f => exact ⟨f, rfl⟩
  cases l with
  | nil => rfl
  | cons x xs =>
      cases xs with
      | nil =>
          have hv := ppValueF_eq x f d (by simp only [fuelL] at hf; omega)
          simp [ppItemsF, ppItems, hv]
      | cons y ys =>
          have hv := ppValueF_eq x f d (by simp only [fuelL] at hf; omega)
          have hi := ppItemsF_eq (y :: ys) f d (by simp only [fuelL] at hf ⊢; omega)
          rw [ppItems]
          · simp [ppItemsF, hv, hi]
          · simp
termination_by 2 * sizeOf l + 1
decreasing_by
  all_goals subst_vars
  all_goals try cases p
  all_goals simp
  all_goals omega

theorem ppMembersF_eq (l : List (String × Json)) (fuel d : Nat) (hf : fuelM l ≤ fuel) :
    ppMembersF fuel d l = some (ppMembers d l) := by
  obtain ⟨f, rfl⟩ : ∃ f, fuel = f + 1 := by
    cases fuel with
    | zero => exact absurd hf (by have := fuelM_pos l; omega)
    | succ f => exact ⟨f, rfl⟩
  cases l with
  | nil => rfl
  | cons p ps =>
      cases ps with
      | nil =>
          have hv := ppValueF_eq p.2 f d (by simp only [fuelM] at hf; omega)
          simp [ppMembersF, ppMembers, hv]
      | cons q qs =>
          have hv := ppValueF_eq p.2 f d (by simp only [fuelM] at hf; omega)
          have hi := ppMembersF_eq (q :: qs) f d (by simp only [fuelM] at hf ⊢; omega)
          rw [ppMembers]
          · simp [ppMembersF, hv, hi]
          · simp
termination_by 2 * sizeOf l + 1
decreasing_by
  all_goals subst_vars
  all_goals try cases p
  all_goals simp
  all_goals omega

end

mutual

theorem cpValueF_eq (j : Json) (fuel : Nat) (hf : fuelV j ≤ fuel) :
    cpValueF fuel j = some (cpValue j) := by
  obtain ⟨f, rfl⟩ : ∃ f, fuel = f + 1 := by
    cases fuel with
    | zero => exact absurd hf (by have := fuelV_pos j; omega)
    | succ f => exact ⟨f, rfl⟩
  cases j with
  | null => rfl
  | bool b => cases b <;> rfl
  | num i => rfl
  | str s => rfl
  | arr l =>
      cases l with
      | nil => rfl
      | cons x xs =>
          have hv := cpValueF_eq x f (by simp only [fuelV, fuelL] at hf; omega)
          have hi := cpItemsF_eq xs f
            (by simp only [fuelV, fuelL] at hf; have := fuelL_pos xs; omega)
          simp [cpValueF, cpValue, hv, hi]
  | obj l =>
      cases l with
      | nil => rfl
      | cons p ps =>
          have hv := cpValueF_eq p.2 f (by simp only [fuelV, fuelM] at hf; omega)
          have hi := cpMembersF_eq ps f
            (by simp only [fuelV, fuelM] at hf; have := fuelM_pos ps; omega)
          simp [cpValueF, cpValue, hv, hi]
termination_by 2 * sizeOf j
decreasing_by
  all_goals subst_vars
  all_goals try cases p
  all_goals simp
  all_goals omega

theorem cpItemsF_eq (l : List Json) (fuel : Nat) (hf : fuelL l ≤ fuel) :
    cpItemsF fuel l = some (cpItems l) := by
  obtain ⟨f, rfl⟩ : ∃ f, fuel = f + 1 := by
    cases fuel with
    | zero => exact absurd hf (by have := fuelL_pos l; omega)
    | succ f => exact ⟨f, rfl⟩
  cases l with
  | nil => rfl
  | cons x xs =>
      have hv := cpValueF_eq x f (by simp only [fuelL] at hf; omega)
      have hi := cpItemsF_eq xs f
        (by simp only [fuelL] at hf; have := fuelL_pos xs; omega)
      simp [cpItemsF, cpItems, hv, hi]
termination_by 2 * sizeOf l + 1
decreasing_by
  all_goals subst_vars
  all_goals try cases p
  all_goals simp
  all_goals omega

theorem cpMembersF_eq (l : List (String × Json)) (fuel : Nat) (hf : fuelM l ≤ fuel) :
    cpMembersF fuel l = some (cpMembers l) := by
  obtain ⟨f, rfl⟩ : ∃ f, fuel = f + 1 := by
    cases fuel with
    | zero => exact absurd hf (by have := fuelM_pos l; omega)
    | succ f => exact ⟨f, rfl⟩
  cases l with
  | nil => rfl
  | cons p ps =>
      have hv := cpValueF_eq p.2 f (by simp only [fuelM] at hf; omega)
      have hi := cpMembersF_eq ps f
        (by simp only [fuelM] at hf; have := fuelM_pos ps; omega)
      simp [cpMembersF, cpMembers, hv, hi]
termination_by 2 * sizeOf l + 1
decreasing_by
  all_goals subst_vars
  all_goals try cases p
  all_goals simp
  all_goals omega

end

/-- Map a fallible conversion over a list, failing if any entry fails. -/
def optionMapList (f : Json → Option String) : List Json → Option (List String)
  | [] => some []
  | x :: xs =>
      match f x, optionMapList f xs with
      | some y, some ys => some (y :: ys)
      | _, _ => none

namespace ResultFormatter

/-- Fueled `convertResultToString`: failure is possible only through fuel
exhaustion in the serializer. -/
def convertResultToStringF (fuel : Nat) (result : Json) : Option String :=
  match result with
  | .str s => some s
  | .num n => some (String.mk (intChars n))
  | r =>
      match cpValueF fuel r with
      | some cs => some (String.mk cs)
      | none => none

/-- Fueled `format`. -/
def formatF (fuel : Nat) (results : List Json) (createJson : Bool) : Option String :=
  if createJson then
    match ppValueF fuel 0 (Json.arr results) with
    | some cs => some (String.mk cs)
    | none => none
  else
    match optionMapList (convertResultToStringF fuel) results with
    | some strs => some (String.intercalate (String.mk ['\n']) strs)
    | none => none

end ResultFormatter

theorem fuelV_mem_le {x : Json} : ∀ {l : List Json}, x ∈ l → fuelV x ≤ fuelL l := by
  intro l hx
  induction l with
  | nil => cases hx
  | cons y ys ih =>
      rcases List.mem_cons.mp hx with h | h
      · subst h; simp only [fuelL]; omega
      · have := ih h; simp only [fuelL]; omega

theorem convertResultToStringF_eq (x : Json) (fuel : Nat) (hf : fuelV x ≤ fuel) :
    ResultFormatter.convertResultToStringF fuel x = some (ResultFormatter.convertResultToString x) := by
  cases x with
  | null => simp [ResultFormatter.convertResultToStringF, ResultFormatter.convertResultToString,
      cpValueF_eq _ _ hf]
  | bool b => simp [ResultFormatter.convertResultToStringF, ResultFormatter.convertResultToString,
      cpValueF_eq _ _ hf]
  | num n => rfl
  | str s => rfl
  | arr l => simp [ResultFormatter.convertResultToStringF, ResultFormatter.convertResultToString,
      cpValueF_eq _ _ hf]
  | obj m => simp [ResultFormatter.convertResultToStringF, ResultFormatter.convertResultToString,
      cpValueF_eq _ _ hf]

theorem optionMapList_eq (fuel : Nat) (ms : List Json) (h : ∀ x ∈ ms, fuelV x ≤ fuel) :
    optionMapList (ResultFormatter.convertResultToStringF fuel) ms
      = some (ms.map ResultFormatter.convertResultToString) := by
  induction ms with
  | nil => rfl
  | cons x xs ih =>
      have hx := convertResultToStringF_eq x fuel (h x (by simp))
      have hxs := ih (fun y hy => h y (by simp [hy]))
      simp [optionMapList, hx, hxs]

/-- Claim C6: the formatter is total.  For every Match Set (including the
empty one) and either flag value, the fueled serializer — whose recursion is
the only possible failure point — succeeds at fuel `fuelV (arr ms)` and
returns exactly the string the formatter produces. -/
theorem format_total (ms : List Json) (b : Bool) :
    ∃ s : String, ResultFormatter.formatF (fuelV (Json.arr ms)) ms b = some s ∧
      ResultFormatter.format ms b = s := by
  refine ⟨ResultFormatter.format ms b, ?_, rfl⟩
  cases b
  · have hmap : optionMapList (ResultFormatter.convertResultToStringF (fuelV (Json.arr ms))) ms
        = some (ms.map ResultFormatter.convertResultToString) :=
      optionMapList_eq _ ms
        (fun x hx => le_trans (fuelV_mem_le hx) (by simp only [fuelV]; omega))
    simp [ResultFormatter.formatF, ResultFormatter.format, hmap]
  · simp [ResultFormatter.formatF, ResultFormatter.format,
      ppValueF_eq (Json.arr ms) _ 0 le_rfl]

/-! ### The query engine

The engine source (`jsonPathQueryEngine.ts`) is referenced by the extension
but is not part of the repository snapshot; everything in this section is
modelled from the spec (sections 3, 4.1 and 7). -/

/-- Immediate children of a node: array elements, or object field values,
in structural order. -/
def children : Json → List Json
  | .arr l => l
  | .obj m => m.map Prod.snd
  | _ => []

theorem sizeL_append (a b : List Json) : sizeL (a ++ b) = sizeL a + sizeL b := by
  induction a with
  | nil => simp [sizeL]
  | cons x xs ih => simp [sizeL, ih]; omega

theorem sizeL_map_snd : ∀ m : List (String × Json), sizeL (m.map Prod.snd) = sizeM m
  | [] => rfl
  | p :: ps => by simp [sizeL, sizeM, sizeL_map_snd ps]

theorem sizeJ_children (j : Json) : sizeJ j = 1 + sizeL (children j) := by
  cases j with
  | null => simp [sizeJ, children, sizeL]
  | bool b => simp [sizeJ, children, sizeL]
  | num n => simp [sizeJ, children, sizeL]
  | str s => simp [sizeJ, children, sizeL]
  | arr l => simp [sizeJ, children]
  | obj m => simp [sizeJ, children, sizeL_map_snd]

/-- Modelled from the spec: recursive descent with an explicit work-list, as
section 9 prescribes — pop a node, emit it, push its children in front of
the remaining work. -/
def descentGo : List Json → List Json
  | [] => []
  | x :: rest => x :: descentGo (children x ++ rest)
termination_by stack => sizeL stack
decreasing_by
  rw [sizeL_append]
  have h1 := sizeJ_children x
  simp [sizeL]
  omega

/-- Modelled from the spec: the recursive-descent segment emits the
candidate itself and every descendant, pre-order. -/
def recursiveDescent (j : Json) : List Json := descentGo [j]

mutual

/-- The spec's recursive formulation of pre-order: a node, then the full
traversal of each child in structural order. -/
def preorderRec : Json → List Json
  | .null => [.null]
  | .bool b => [.bool b]
  | .num n => [.num n]
  | .str s => [.str s]
  | .arr l => .arr l :: preorderArr l
  | .obj m => .obj m :: preorderObj m

def preorderArr : List Json → List Json
  | [] => []
  | x :: xs => preorderRec x ++ preorderArr xs

def preorderObj : List (String × Json) → List Json
  | [] => []
  | p :: ps => preorderRec p.2 ++ preorderObj ps

end

theorem descentGo_append : ∀ (a b : List Json),
    descentGo (a ++ b) = descentGo a ++ descentGo b
  | [], b => by simp [descentGo]
  | x :: rest, b => by
      rw [show (x :: rest) ++ b = x :: (rest ++ b) from rfl, descentGo, descentGo]
      rw [show children x ++ (rest ++ b) = (children x ++ rest) ++ b from by simp]
      rw [descentGo_append (children x ++ rest) b]
      simp
termination_by a _ => sizeL a
decreasing_by
  rw [sizeL_append]
  have h1 := sizeJ_children x
  simp [sizeL]
  omega

theorem recursiveDescent_eq (j : Json) :
    recursiveDescent j = j :: descentGo (children j) := by
  rw [recursiveDescent, descentGo]
  simp

theorem descentGo_flatMap (l : List Json) :
    descentGo l = l.flatMap recursiveDescent := by
  induction l with
  | nil => simp [descentGo]
  | cons x rest ih =>
      rw [descentGo, descentGo_append, List.flatMap_cons, ← ih, recursiveDescent_eq]
      simp

theorem sizeL_eq_sum : ∀ l : List Json, sizeL l = (l.map sizeJ).sum
  | [] => by simp [sizeL]
  | x :: xs => by simp [sizeL, sizeL_eq_sum xs]

theorem sizeJ_mem_le {x : Json} : ∀ {l : List Json}, x ∈ l → sizeJ x ≤ sizeL l := by
  intro l hx
  induction l with
  | nil => cases hx
  | cons y ys ih =>
      rcases List.mem_cons.mp hx with h | h
      · subst h; simp only [sizeL]; omega
      · have := ih h; simp only [sizeL]; omega

theorem recursiveDescent_length_aux : ∀ (n : Nat) (j : Json), sizeJ j ≤ n →
    (recursiveDescent j).length = sizeJ j := by
  intro n
  induction n with
  | zero => intro j h; exact absurd h (by have := sizeJ_pos j; omega)
  | succ n ih =>
      intro j h
      rw [recursiveDescent_eq, descentGo_flatMap]
      simp only [List.length_cons]
      have hmap : ∀ c ∈ children j, (recursiveDescent c).length = sizeJ c := by
        intro c hc
        apply ih
        have h1 := sizeJ_mem_le hc
        have h2 := sizeJ_children j
        omega
      have hlen : ((children j).flatMap recursiveDescent).length
          = ((children j).map (fun c => (recursiveDescent c).length)).sum := by
        rw [List.flatMap, List.length_flatten, List.map_map]
        rfl
      rw [hlen, List.map_congr_left hmap, ← sizeL_eq_sum]
      have h2 := sizeJ_children j
      omega

theorem recursiveDescent_length (j : Json) : (recursiveDescent j).length = sizeJ j :=
  recursiveDescent_length_aux (sizeJ j) j le_rfl

/-! Path expressions, filter predicates and the segment evaluator,
modelled from spec sections 3 and 4.1. -/

inductive CmpOp where
  | eq | ne | lt | le | gt | ge

inductive FilterLit where
  | num (n : Int)
  | str (s : String)
  | bool (b : Bool)
  | null

inductive FilterExpr where
  | cmp (field : String) (op : CmpOp) (lit : FilterLit)
  | and (a b : FilterExpr)
  | or (a b : FilterExpr)

inductive Segment where
  | child (name : String)
  | wildcard
  | index (i : Int)
  | slice (start stop step : Option Int)
  | descent
  | filter (e : FilterExpr)

def lookupField (fields : List (String × Json)) (name : String) : Option Json :=
  (fields.find? (fun p => p.1 == name)).map Prod.snd

def cmpInt (op : CmpOp) (a b : Int) : Bool :=
  match op with
  | .eq => a == b
  | .ne => a != b
  | .lt => decide (a < b)
  | .le => decide (a ≤ b)
  | .gt => decide (b < a)
  | .ge => decide (b ≤ a)

def cmpStr (op : CmpOp) (a b : String) : Bool :=
  match op with
  | .eq => a == b
  | .ne => a != b
  | .lt => decide (a < b)
  | .le => decide (a ≤ b)
  | .gt => decide (b < a)
  | .ge => decide (b ≤ a)

/-- Modelled from the spec: typed comparison with a three-valued outcome —
type-mismatched comparisons are false, never an error. -/
def evalCmp (op : CmpOp) (v : Json) (lit : FilterLit) : Bool :=
  match v, lit with
  | .num a, .num b => cmpInt op a b
  | .str a, .str b => cmpStr op a b
  | .bool a, .bool b =>
      match op with
      | .eq => a == b
      | .ne => a != b
      | _ => false
  | .null, .null =>
      match op with
      | .eq => true
      | .ne => false
      | _ => false
  | _, _ => false

/-- Modelled from the spec: evaluate the boolean expression against the
candidate's own fields. -/
def evalFilter : FilterExpr → Json → Bool
  | .cmp field op lit, j =>
      match j with
      | .obj fields =>
          match lookupField fields field with
          | some v => evalCmp op v lit
          | none => false
      | _ => false
  | .and a b, j => evalFilter a j && evalFilter b j
  | .or a b, j => evalFilter a j || evalFilter b j

def sliceWalk : Nat → Int → Int → Int → List Int
  | 0, _, _, _ => []
  | fuel + 1, i, stop, step =>
      if (0 < step ∧ i < stop) ∨ (step < 0 ∧ stop < i) then
        i :: sliceWalk fuel (i + step) stop step
      else []

def clampI (v lo hi : Int) : Int := max lo (min hi v)

/-- Modelled from the spec: Python-style slice index resolution (inclusive
start, exclusive end, negative indices and negative step supported). -/
def sliceIndices (start stop step : Option Int) (n : Nat) : List Int :=
  let st := step.getD 1
  if st = 0 then []
  else if 0 < st then
    let s0 := match start with
      | none => 0
      | some v => clampI (if v < 0 then v + n else v) 0 n
    let e0 := match stop with
      | none => (n : Int)
      | some v => clampI (if v < 0 then v + n else v) 0 n
    sliceWalk (n + 1) s0 e0 st
  else
    let s0 := match start with
      | none => (n : Int) - 1
      | some v => clampI (if v < 0 then v + n else v) (-1) ((n : Int) - 1)
    let e0 := match stop with
      | none => -1
      | some v => clampI (if v < 0 then v + n else v) (-1) ((n : Int) - 1)
    sliceWalk (n + 1) s0 e0 st

def getAt (l : List Json) (i : Int) : List Json :=
  if i < 0 then []
  else
    match l.get? i.toNat with
    | some v => [v]
    | none => []

/-- Modelled from the spec: one segment applied to one candidate. -/
def applyOne : Segment → Json → List Json
  | .child name, .obj fields =>
      match lookupField fields name with
      | some v => [v]
      | none => []
  | .child _, _ => []
  | .wildcard, j => children j
  | .index i, .arr elems => getAt elems (if i < 0 then i + elems.length else i)
  | .index _, _ => []
  | .slice a b c, .arr elems => (sliceIndices a b c elems.length).flatMap (getAt elems)
  | .slice _ _ _, _ => []
  | .descent, j => recursiveDescent j
  | .filter e, j => if evalFilter e j then [j] else []

/-- Modelled from the spec: each segment consumes the candidate set and
produces the next, preserving discovery order. -/
def applySegment (s : Segment) (cands : List Json) : List Json :=
  cands.flatMap (applyOne s)

def evalPath (segs : List Segment) (root : Json) : List Json :=
  segs.foldl (fun cands s => applySegment s cands) [root]

theorem preorderArr_flatMap : ∀ l : List Json, preorderArr l = l.flatMap preorderRec
  | [] => by simp [preorderArr]
  | x :: xs => by simp [preorderArr, preorderArr_flatMap xs]

theorem preorderObj_flatMap :
    ∀ m : List (String × Json), preorderObj m = (m.map Prod.snd).flatMap preorderRec
  | [] => by simp [preorderObj]
  | p :: ps => by simp [preorderObj, preorderObj_flatMap ps]

theorem preorderRec_eq_children (j : Json) :
    preorderRec j = j :: (children j).flatMap preorderRec := by
  cases j <;> simp [preorderRec, children, preorderArr_flatMap, preorderObj_flatMap]

theorem recursiveDescent_eq_preorder_aux : ∀ (n : Nat) (j : Json), sizeJ j ≤ n →
    recursiveDescent j = preorderRec j := by
  intro n
  induction n with
  | zero => intro j h; exact absurd h (by have := sizeJ_pos j; omega)
  | succ n ih =>
      intro j h
      rw [recursiveDescent_eq, descentGo_flatMap, preorderRec_eq_children]
      congr 1
      rw [List.flatMap, List.flatMap]
      congr 1
      apply List.map_congr_left
      intro c hc
      apply ih
      have h1 := sizeJ_mem_le hc
      have h2 := sizeJ_children j
      omega

theorem recursiveDescent_eq_preorder (j : Json) : recursiveDescent j = preorderRec j :=
  recursiveDescent_eq_preorder_aux (sizeJ j) j le_rfl

/-- Claim C9: the engine's recursive-descent traversal of a document with
`sizeJ j` nodes visits every node exactly once — the output has exactly that
length — and is the pre-order traversal: the node itself followed by the
full traversals of its children in structural order; this is what the
descent segment of the evaluator produces. -/
theorem descent_preorder_complete (j : Json) :
    recursiveDescent j = j :: (children j).flatMap recursiveDescent ∧
    (recursiveDescent j).length = sizeJ j ∧
    recursiveDescent j = preorderRec j ∧
    applySegment Segment.descent [j] = recursiveDescent j := by
  refine ⟨?_, ?_, ?_, ?_⟩
  · rw [recursiveDescent_eq, descentGo_flatMap]
  · exact recursiveDescent_length j
  · exact recursiveDescent_eq_preorder j
  · simp [applySegment, applyOne]

/-! ### The query-string grammar (spec section 4.1, parse contract) -/

def isNameChar (c : Char) : Bool := c.isAlphanum || c = '_' || c = '-'

def takeName : List Char → List Char × List Char
  | [] => ([], [])
  | c :: rest =>
      if isNameChar c then
        let p := takeName rest
        (c :: p.1, p.2)
      else ([], c :: rest)

def dropSpaces (l : List Char) : List Char := l.dropWhile (fun c => c == ' ')

/-- An optionally signed decimal integer making up the whole chunk. -/
def parseIntAll (l : List Char) : Option Int :=
  match l with
  | '-' :: rest =>
      match parseNatHead rest with
      | some (n, []) => some (-(n : Int))
      | _ => none
  | _ =>
      match parseNatHead l with
      | some (n, []) => some ((n : Int))
      | _ => none

def splitColon : List Char → List (List Char)
  | [] => [[]]
  | c :: rest =>
      let r := splitColon rest
      if c = ':' then [] :: r
      else
        match r with
        | h :: t => (c :: h) :: t
        | [] => [[c]]

def parseOptInt (l : List Char) : Option (Option Int) :=
  if l = [] then some none
  else
    match parseIntAll l with
    | some i => some (some i)
    | none => none

/-- Scan bracket content up to the closing `]`, tracking an open quote so a
quoted name may contain `]`. -/
def scanToRBracket : List Char → Option Char → Option (List Char × List Char)
  | [], _ => none
  | c :: rest, some q =>
      if c = q then (scanToRBracket rest none).map (fun p => (c :: p.1, p.2))
      else (scanToRBracket rest (some q)).map (fun p => (c :: p.1, p.2))
  | c :: rest, none =>
      if c = ']' then some ([], rest)
      else if c = dquote || c = squote then
        (scanToRBracket rest (some c)).map (fun p => (c :: p.1, p.2))
      else (scanToRBracket rest none).map (fun p => (c :: p.1, p.2))

def takeUntilQuote (q : Char) : List Char → Option (List Char × List Char)
  | [] => none
  | c :: rest =>
      if c = q then some ([], rest)
      else (takeUntilQuote q rest).map (fun p => (c :: p.1, p.2))

def parseOp : List Char → Option (CmpOp × List Char)
  | '=' :: '=' :: r => some (.eq, r)
  | '!' :: '=' :: r => some (.ne, r)
  | '<' :: '=' :: r => some (.le, r)
  | '>' :: '=' :: r => some (.ge, r)
  | '<' :: r => some (.lt, r)
  | '>' :: r => some (.gt, r)
  | _ => none

def takeTok (l : List Char) : List Char × List Char :=
  (l.takeWhile (fun c => !(c == ' ' || c == '&' || c == '|')),
   l.dropWhile (fun c => !(c == ' ' || c == '&' || c == '|')))

/-- One comparison clause `@.field OP literal`. -/
def parseClause (l : List Char) : Option (FilterExpr × List Char) :=
  match dropSpaces l with
  | '@' :: '.' :: rest =>
      let p := takeName rest
      if p.1 = [] then none
      else
        match parseOp (dropSpaces p.2) with
        | none => none
        | some (op, r3) =>
            match dropSpaces r3 with
            | [] => none
            | c :: rest2 =>
                if c = squote || c = dquote then
                  match takeUntilQuote c rest2 with
                  | some (sl, r5) =>
                      some (.cmp (String.mk p.1) op (.str (String.mk sl)), r5)
                  | none => none
                else
                  let t := takeTok (c :: rest2)
                  if t.1 = 't' :: 'r' :: 'u' :: 'e' :: [] then
                    some (.cmp (String.mk p.1) op (.bool true), t.2)
                  else if t.1 = 'f' :: 'a' :: 'l' :: 's' :: 'e' :: [] then
                    some (.cmp (String.mk p.1) op (.bool false), t.2)
                  else if t.1 = 'n' :: 'u' :: 'l' :: 'l' :: [] then
                    some (.cmp (String.mk p.1) op .null, t.2)
                  else
                    match parseIntAll t.1 with
                    | some n => some (.cmp (String.mk p.1) op (.num n), t.2)
                    | none => none
  | _ => none

def parseFilterRest : Nat → FilterExpr → List Char → Option FilterExpr
  | 0, _, _ => none
  | fuel + 1, acc, l =>
      match dropSpaces l with
      | [] => some acc
      | '&' :: '&' :: r =>
          match parseClause r with
          | some (c, r2) => parseFilterRest fuel (.and acc c) r2
          | none => none
      | '|' :: '|' :: r =>
          match parseClause r with
          | some (c, r2) => parseFilterRest fuel (.or acc c) r2
          | none => none
      | _ => none

def parseFilterExpr (l : List Char) : Option FilterExpr :=
  match parseClause l with
  | some (c, r) => parseFilterRest (r.length + 1) c r
  | none => none

/-- Interpret the content of one bracket selector: quoted or unquoted name,
wildcard, filter `?(...)`, slice `start:end:step`, or numeric index. -/
def parseBracketContent (content : List Char) : Option Segment :=
  match content with
  | [] => none
  | c :: rest =>
      if c = squote || c = dquote then
        match takeUntilQuote c rest with
        | some (nm, r) => if r = [] then some (.child (String.mk nm)) else none
        | none => none
      else if c = '*' then
        if rest = [] then some .wildcard else none
      else if c = '?' then
        match rest with
        | '(' :: r2 =>
            match r2.reverse with
            | ')' :: revInner => (parseFilterExpr revInner.reverse).map .filter
            | _ => none
        | _ => none
      else if content.contains ':' then
        match splitColon content with
        | [a, b] =>
            match parseOptInt a, parseOptInt b with
            | some sa, some sb => some (.slice sa sb none)
            | _, _ => none
        | [a, b, c2] =>
            match parseOptInt a, parseOptInt b, parseOptInt c2 with
            | some sa, some sb, some sc => some (.slice sa sb sc)
            | _, _, _ => none
        | _ => none
      else
        match parseIntAll content with
        | some i => some (.index i)
        | none =>
            if content.all isNameChar then some (.child (String.mk content)) else none

/-- One step of the segment grammar: dot access, double-dot descent, or a
bracket selector.  Always consumes at least one character. -/
def parseOneSeg : List Char → Option (List Segment × List Char)
  | '.' :: '.' :: rest =>
      match rest with
      | '*' :: r => some ([.descent, .wildcard], r)
      | '[' :: r =>
          match scanToRBracket r none with
          | some (content, r2) =>
              (parseBracketContent content).map (fun s => ([.descent, s], r2))
          | none => none
      | _ =>
          let p := takeName rest
          if p.1 = [] then none else some ([.descent, .child (String.mk p.1)], p.2)
  | '.' :: rest =>
      match rest with
      | '*' :: r => some ([.wildcard], r)
      | _ =>
          let p := takeName rest
          if p.1 = [] then none else some ([.child (String.mk p.1)], p.2)
  | '[' :: rest =>
      match scanToRBracket rest none with
      | some (content, r2) => (parseBracketContent content).map (fun s => ([s], r2))
      | none => none
  | _ => none

def parseSegsF : Nat → List Char → Option (List Segment)
  | 0, _ => none
  | _ + 1, [] => some []
  | fuel + 1, l =>
      match parseOneSeg l with
      | some (segs, rest) => (parseSegsF fuel rest).map (fun t => segs ++ t)
      | none => none

/-- Modelled from the spec: compile a query string into a Path Expression.
The string must start with the root anchor `$`; empty or whitespace-only
input fails (it does not start with `$`), and any syntactic violation
yields `none`, classified below as `InvalidQuery`. -/
def parseQuery (q : String) : Option (List Segment) :=
  match q.data with
  | '$' :: rest => parseSegsF (rest.length + 1) rest
  | _ => none

/-! ### Outcome classification (`processQueryResultStatus.ts` and
`processQueryResult.ts`, reconstructed from their use in
`jsonPathExtension.ts`) -/

inductive ProcessQueryResultStatus where
  | Success
  | NoData
  | InvalidQuery
  | Error

deriving instance DecidableEq for ProcessQueryResultStatus

structure ProcessQueryResult where
  status : ProcessQueryResultStatus
  result : Option (List Json)

/-- Modelled from the spec: `JsonPathQueryEngine.processQuery` — a parse
failure is `InvalidQuery`; a successful parse evaluates the path and is
`Success` with the Match Set, which may be empty.  The model is a total
function, so the spec's `EngineError` (an unexpected internal fault) has no
producing case, and no `NoData` status is ever produced. -/
def processQuery (query : String) (jsonObject : Json) : ProcessQueryResult :=
  match parseQuery query with
  | none => ⟨.InvalidQuery, none⟩
  | some segs => ⟨.Success, some (evalPath segs jsonObject)⟩

/-- Claim C8: evaluating the root-only query `$` (root anchor, no segments)
returns `Success` with a Match Set holding exactly the root value. -/
theorem root_query_returns_root (doc : Json) :
    processQuery "$" doc = ⟨.Success, some [doc]⟩ := rfl

/-! ### The extension glue (`jsonPathExtension.ts`) -/

inductive OutputFormat where
  | Json
  | Text

structure SavedQuery where
  title : String
  query : String
  output : OutputFormat

/-- One observable host interaction of the extension. -/
inductive Effect where
  | showErrorMessage (msg : String)
  | showInformationMessage (msg : String)
  | logError
  | queryEngineInvoked (query : String)
  | formatterInvoked
  | contentShown (content : String) (createJson : Bool)

namespace JsonPathExtension

def NoJsonDocumentErrorMsg : String :=
  "Active editor doesn\x27t show a valid JSON file - please open a valid JSON file first"

def InvalidJsonPathErrorMsg : String := "Provided jsonpath expression is not valid."

def NoSavedQueriesErrorMsg : String := "Couldn\x27t find any JSONPath queries in configuration."

def EnterJsonPathPrompt : String := "Enter jsonpath."

def NoResultsFoundMsg : String := "No results found for provided jsonpath."

/-- `handleError`: map a result to user-facing effects (the `switch` in
`jsonPathExtension.ts`; `Success` falls through with no effect). -/
def handleError (result : ProcessQueryResult) : List Effect :=
  match result.status with
  | .InvalidQuery => [.showErrorMessage InvalidJsonPathErrorMsg]
  | .NoData => [.showInformationMessage NoResultsFoundMsg]
  | .Error => [.logError]
  | .Success => []

/-- A parsed value is a JS `Object` exactly when it is an array or an
object (`jsonObject instanceof Object`). -/
def isJsObject : Json → Bool
  | .arr _ => true
  | .obj _ => true
  | _ => false

/-- `getJsonObject`: `JSON.parse` the editor text; a parse error or a
non-`Object` top-level value yields `undefined`. -/
def getJsonObject (text : String) : Option Json :=
  match JSONparse text with
  | some j => if isJsObject j then some j else none
  | none => none

/-- `run`: the interactive command.  `activeTextEditor` carries the
document text when an editor is open; `userInput` is the input-box result
(`none` when the user cancels).  The returned list is the ordered trace of
host effects. -/
def run (activeTextEditor : Option String) (userInput : Option String)
    (createJson : Bool) : List Effect :=
  match activeTextEditor with
  | none => [.showErrorMessage NoJsonDocumentErrorMsg]
  | some text =>
      match getJsonObject text with
      | none => [.showErrorMessage NoJsonDocumentErrorMsg]
      | some jsonObject =>
          match userInput with
          | none => []
          | some input =>
              let result := processQuery input jsonObject
              match result.status, result.result with
              | .Success, some ms =>
                  [.queryEngineInvoked input, .formatterInvoked,
                   .contentShown (ResultFormatter.format ms createJson) createJson]
              | _, _ => .queryEngineInvoked input :: handleError result

/-- `runSavedQuery`: like `run`, with the query and output format taken
from a picked saved query. -/
def runSavedQuery (activeTextEditor : Option String)
    (savedQueries : Option (List SavedQuery)) (picked : Option SavedQuery) : List Effect :=
  match activeTextEditor with
  | none => [.showErrorMessage NoJsonDocumentErrorMsg]
  | some text =>
      match getJsonObject text with
      | none => [.showErrorMessage NoJsonDocumentErrorMsg]
      | some jsonObject =>
          match savedQueries with
          | none => [.showErrorMessage NoSavedQueriesErrorMsg]
          | some qs =>
              if qs.isEmpty then [.showErrorMessage NoSavedQueriesErrorMsg]
              else
                match picked with
                | none => []
                | some sq =>
                    let result := processQuery sq.query jsonObject
                    match result.status, result.result with
                    | .Success, some ms =>
                        let createJson :=
                          match sq.output with
                          | OutputFormat.Json => true
                          | OutputFormat.Text => false
                        [.queryEngineInvoked sq.query, .formatterInvoked,
                         .contentShown (ResultFormatter.format ms createJson) createJson]
                    | _, _ => .queryEngineInvoked sq.query :: handleError result

end JsonPathExtension

/-- Claim C1: a syntactically valid query that matches no nodes yields
`Success` with an empty Match Set; its status differs from `InvalidQuery`
(so the caller can distinguish the two outcomes — `handleError` maps
`InvalidQuery` to an error message and `Success` to nothing), and no
separate no-data status is produced for it. -/
theorem zero_matches_is_success (q : String) (doc : Json) (segs : List Segment)
    (hp : parseQuery q = some segs) (hempty : evalPath segs doc = []) :
    processQuery q doc = ⟨.Success, some []⟩ ∧
    (processQuery q doc).status ≠ ProcessQueryResultStatus.InvalidQuery ∧
    (processQuery q doc).status ≠ ProcessQueryResultStatus.NoData ∧
    JsonPathExtension.handleError (processQuery q doc) = [] ∧
    JsonPathExtension.handleError ⟨.InvalidQuery, none⟩
      = [.showErrorMessage JsonPathExtension.InvalidJsonPathErrorMsg] := by
  have h1 : processQuery q doc = ⟨.Success, some []⟩ := by
    rw [processQuery, hp]
    simp [hempty]
  refine ⟨h1, ?_, ?_, ?_, rfl⟩
  · rw [h1]; decide
  · rw [h1]; decide
  · rw [h1]; rfl

/-- Concrete instantiation of `zero_matches_is_success`: the valid query
`$.a` finds nothing in the empty object. -/
theorem zero_matches_is_success_witness :
    processQuery "$.a" (Json.obj []) = ⟨.Success, some []⟩ ∧
    (processQuery "$.a" (Json.obj [])).status ≠ ProcessQueryResultStatus.InvalidQuery ∧
    (processQuery "$.a" (Json.obj [])).status ≠ ProcessQueryResultStatus.NoData ∧
    JsonPathExtension.handleError (processQuery "$.a" (Json.obj [])) = [] ∧
    JsonPathExtension.handleError ⟨.InvalidQuery, none⟩
      = [.showErrorMessage JsonPathExtension.InvalidJsonPathErrorMsg] :=
  zero_matches_is_success "$.a" (Json.obj []) [Segment.child "a"] rfl rfl

/-- Claim C10: when the editor text parses as JSON but its top-level value
is a scalar (number, string, boolean or null), both commands report the
no-JSON-document error and return without invoking the query engine or the
formatter. -/
theorem non_object_document_rejected (text : String) (j : Json) (input : Option String)
    (b : Bool) (queries : Option (List SavedQuery)) (picked : Option SavedQuery)
    (hparse : JSONparse text = some j) (hscalar : JsonPathExtension.isJsObject j = false) :
    JsonPathExtension.run (some text) input b
      = [.showErrorMessage JsonPathExtension.NoJsonDocumentErrorMsg] ∧
    JsonPathExtension.runSavedQuery (some text) queries picked
      = [.showErrorMessage JsonPathExtension.NoJsonDocumentErrorMsg] ∧
    (∀ q', Effect.queryEngineInvoked q' ∉ JsonPathExtension.run (some text) input b) ∧
    Effect.formatterInvoked ∉ JsonPathExtension.run (some text) input b := by
  have hg : JsonPathExtension.getJsonObject text = none := by
    rw [JsonPathExtension.getJsonObject, hparse]
    simp [hscalar]
  have h1 : JsonPathExtension.run (some text) input b
      = [.showErrorMessage JsonPathExtension.NoJsonDocumentErrorMsg] := by
    rw [JsonPathExtension.run, hg]
  have h2 : JsonPathExtension.runSavedQuery (some text) queries picked
      = [.showErrorMessage JsonPathExtension.NoJsonDocumentErrorMsg] := by
    rw [JsonPathExtension.runSavedQuery, hg]
  refine ⟨h1, h2, ?_, ?_⟩
  · intro q'
    rw [h1]
    simp
  · rw [h1]
    simp

/-- Concrete instantiation of `non_object_document_rejected`: the document
text `42` parses as a JSON number. -/
theorem non_object_document_rejected_witness :
    JsonPathExtension.run (some "42") none false
      = [.showErrorMessage JsonPathExtension.NoJsonDocumentErrorMsg] ∧
    JsonPathExtension.runSavedQuery (some "42") none none
      = [.showErrorMessage JsonPathExtension.NoJsonDocumentErrorMsg] ∧
    (∀ q', Effect.queryEngineInvoked q' ∉ JsonPathExtension.run (some "42") none false) ∧
    Effect.formatterInvoked ∉ JsonPathExtension.run (some "42") none false :=
  non_object_document_rejected "42" (Json.num 42) none false none none rfl rfl
